import Mathlib

/-!
Verification of the constant-estimation core of `bens_number_theory`
(`src/constants.rs`, `src/sequences.rs`, `src/factorials.rs`).

Shallow embedding conventions:
* Rust `BigInt` is `ℤ`, `BigUint`-valued positions are still `ℤ` (values proved
  nonnegative where it matters), `dashu::rational::RBig` is `ℚ` (both are kept
  canonical, in lowest terms, by the libraries and by Lean's `Rat`).
* `RBig::from_parts(n, d)` panics when `d = 0`, and rational division panics
  on a zero divisor; a function that can reach such a panic is embedded with
  an `Option` result (`none` = panic).
* Loops with a counter are embedded as structural recursion on the number of
  remaining iterations.
-/

namespace BensNT

/-! ### factorials.rs -/

/-- Helper for the nonnegative branch of `factorial`: `factorialNat k = factorial k`
for a natural `k`, written with structural recursion so that it computes.
`factorialNat 0 = factorialNat 1 = 1`, `factorialNat (k+2) = (k+2) * factorialNat (k+1)`,
mirroring `n if n <= 1 => 1, _ => n * factorial(n - 1)`. -/
def factorialNat : ℕ → ℤ
  | 0 => 1
  | 1 => 1
  | k + 2 => (k + 2 : ℤ) * factorialNat (k + 1)

/-- `factorials.rs::factorial(n: BigInt) -> BigInt`:
`match n { n if n <= 1 => 1, _ => n.clone() * factorial(n - 1) }`.
A negative argument satisfies `n <= 1`, so it hits the base case and returns 1. -/
def factorial (n : ℤ) : ℤ :=
  match n with
  | Int.negSucc _ => 1
  | Int.ofNat k => factorialNat k

/-- The embedding of `factorial` satisfies the source's recursion verbatim:
1 when `n ≤ 1`, else `n * factorial (n - 1)`. -/
theorem factorial_eq (n : ℤ) :
    factorial n = if n ≤ 1 then 1 else n * factorial (n - 1) := by
  match n with
  | Int.negSucc k =>
    have h : (Int.negSucc k) ≤ 1 := by rw [Int.negSucc_eq]; omega
    simp [factorial, h]
  | Int.ofNat 0 => rfl
  | Int.ofNat 1 => rfl
  | Int.ofNat (k + 2) =>
    have h : ¬ ((Int.ofNat (k + 2)) ≤ 1) := by rw [Int.ofNat_eq_coe]; omega
    have h2 : (Int.ofNat (k + 2)) - 1 = Int.ofNat (k + 1) := by
      rw [Int.ofNat_eq_coe, Int.ofNat_eq_coe]; omega
    simp only [factorial, factorialNat, h, if_false, h2]
    norm_num

/-! ### sequences.rs -/

/-- `sequences.rs::fib_rec` (also the inline loop body of
`generate_lucas_sequence`): takes the last two elements with `last_chunk()` and
returns `last_two[0] + last_two[1]`.  The `last_chunk().unwrap()` panic on a
list shorter than 2 is modelled with default value 0; every call site in the
sources passes a list of length ≥ 2. -/
def fib_rec (nums : List ℤ) : ℤ :=
  nums.getD (nums.length - 2) 0 + nums.getD (nums.length - 1) 0

/-- The `while i < n` push loop shared (textually duplicated) by
`generate_lucas_sequence` and `fibonacci_sequence`: each iteration pushes the
sum of the last two elements.  `fuel` is the number of remaining iterations. -/
def appendSums : ℕ → List ℤ → List ℤ
  | 0, p => p
  | f + 1, p => appendSums f (p ++ [fib_rec p])

/-- `sequences.rs::generate_lucas_sequence(n)`: starts from `[2, 1]`, counter
`i = 2`, loops while `i < n`, so `n - 2` iterations (truncated subtraction). -/
def generate_lucas_sequence (n : ℕ) : List ℤ :=
  appendSums (n - 2) [2, 1]

/-- `sequences.rs::lucas_sequence(n)`: `[]` for `n = 0`, `[2]` for `n = 1`,
otherwise `generate_lucas_sequence n`. -/
def lucas_sequence (n : ℕ) : List ℤ :=
  if n = 0 then [] else if n = 1 then [2] else generate_lucas_sequence n

/-- `sequences.rs::fibonacci_sequence(n)`: starts from `[0, 1]`, counter
`i = 2`, loops while `i < n` pushing `fib_rec` of the accumulated list.
Note there is no special case for `n = 0` or `n = 1`. -/
def fibonacci_sequence (n : ℕ) : List ℤ :=
  appendSums (n - 2) [0, 1]

/-! ### constants.rs -/

/-- One Newton step of `constants.rs::approx_sqrt`:
`approx = (approx + start / approx) / 2`.  The division `&start / &approx`
panics in dashu when `approx` is zero, modelled as `none`.  The divisor in
the source is `RBig::simplest_from_f32(2_f32)`, and the simplest rational
rounding to the exactly representable float `2.0f32` is `2` itself. -/
def sqrtStep (start approx : ℚ) : Option ℚ :=
  if approx = 0 then none else some ((approx + start / approx) / 2)

/-- `constants.rs::approx_sqrt(number, iterations)`: `start = number`,
`approx = start`, then `for _ in 0..iterations` apply `sqrtStep`; `none` as
soon as an iterate hits the division-by-zero panic (possible only when
`number ≤ 0`). -/
def approx_sqrt (number : ℚ) : ℕ → Option ℚ
  | 0 => some number
  | it + 1 => (approx_sqrt number it).bind (sqrtStep number)

/-- The value produced by `RBig::from_parts(frac.denominator(), frac.numerator().sqr().nth_root(2))`:
the input's denominator over the absolute value of its numerator
(`sqr` then exact square root is the absolute value). -/
def swapAbs (frac : ℚ) : ℚ :=
  (frac.den : ℚ) / (frac.num.natAbs : ℚ)

/-- `constants.rs::inverse(frac)`: builds
`RBig::from_parts(frac.denominator(), |frac.numerator()|)`.
`from_parts` panics when the new denominator `|frac.numerator()|` is zero,
modelled as `none`. -/
def inverse (frac : ℚ) : Option ℚ :=
  if frac.num = 0 then none else some (swapAbs frac)

/-- The constant `A` of `estimate_pi_ratio`:
`(RBig::from(2) * approx_sqrt(2, 10)) / RBig::from(9801)`.  The bootstrap
call `approx_sqrt(2, 10)` starts from the positive value 2, every Newton
iterate stays positive, so it never panics and returns `some`; `getD 0`
extracts that value to name the constant. -/
def piA : ℚ :=
  (2 * (approx_sqrt 2 10).getD 0) / 9801

/-- One iteration of the summation loop of `constants.rs::estimate_pi_ratio`:

* `b_top = factorial(4 * i) * (1103 + 26390 * i)`
* `b_bot = 4^(4 * i) * factorial(i)^4`
* `b_n = from_parts(b_top, b_bot)` (value `b_top / b_bot`; `b_bot > 0` always)
* `c_n_og = RBig::from(99)^(4 * i) * factorial(i)^4`
* `c_n = from_parts(c_n_og.denominator(), |c_n_og.numerator()|)`, i.e.
  `swapAbs c_n_og`; the numerator of `c_n_og` is the positive integer
  `99^(4 i) * (i!)^4`, so the zero-denominator panic of `from_parts` is
  unreachable here and the pure `swapAbs` is a faithful model.

The iteration adds `b_n * c_n` to the running sum. -/
def piTerm (i : ℕ) : ℚ :=
  let b_top : ℤ := factorial (4 * i) * (1103 + 26390 * i)
  let b_bot : ℤ := 4 ^ (4 * i) * (factorial i) ^ 4
  let b_n : ℚ := (b_top : ℚ) / (b_bot : ℚ)
  let c_n_og : ℚ := (99 : ℚ) ^ (4 * i) * ((factorial i ^ 4 : ℤ) : ℚ)
  let c_n : ℚ := swapAbs c_n_og
  b_n * c_n

/-- The summation loop of `estimate_pi_ratio`: `sum` starts at 0, counter `i`
at 0, and while `i < n` the loop adds `piTerm i`.  `piSum n` is the value of
`sum` after the loop exits. -/
def piSum : ℕ → ℚ
  | 0 => 0
  | n + 1 => piSum n + piTerm n

/-- `constants.rs::estimate_pi_ratio(n)`: computes
`a = (2 * approx_sqrt(2, 10)) / 9801`, accumulates the series sum for
`i < n`, and returns `inverse(a * sum)`.  A panic anywhere (the
division-by-zero panic inside `approx_sqrt`, which in fact never fires for
the fixed positive argument 2, or the `from_parts` zero-denominator panic
inside `inverse`, which fires exactly when `a * sum` has numerator 0) is
`none`. -/
def estimate_pi_ratio (n : ℕ) : Option ℚ :=
  match approx_sqrt 2 10 with
  | none => none
  | some a_root_two => inverse (((2 * a_root_two) / 9801) * piSum n)

/-- `constants.rs::golden_ratio(n)`: returns the rational `0/1` when `n < 2`;
otherwise takes `lucas = lucas_sequence n`, pops the last element as numerator
and the new last element as denominator, and builds
`from_parts(numerator, denominator)` (value: their quotient). -/
def golden_ratio (n : ℕ) : ℚ :=
  if n < 2 then 0
  else
    ((lucas_sequence n).getD ((lucas_sequence n).length - 1) 0 : ℚ) /
      ((lucas_sequence n).getD ((lucas_sequence n).length - 2) 0 : ℚ)

/-! ### Spec-side reference definitions

These follow the specification's words (not the code) and exist to be compared
against the embedded code above. -/

/-- Modelled from the spec: the series term
`term(i) = [(4i)! * (1103 + 26390 i)] / [4^(4i) * (i!)^4] * 1 / 99^(4i)`. -/
def specPiTerm (i : ℕ) : ℚ :=
  (((4 * i).factorial : ℚ) * (1103 + 26390 * i)) / ((4 : ℚ) ^ (4 * i) * (i.factorial : ℚ) ^ 4)
    * (1 / (99 : ℚ) ^ (4 * i))

/-- Modelled from the spec: `sum = Σ term(i) for i = 0 .. n_terms - 1`. -/
def specPiSum (n : ℕ) : ℚ :=
  ∑ i ∈ Finset.range n, specPiTerm i

/-- Modelled from the spec: the reciprocal of a rational `p/q` is `q/p`,
"a literal numerator/denominator swap (with sign correctly relocated to the
numerator)" -- as a rational value, exactly `q / p`. -/
def specReciprocal (x : ℚ) : ℚ :=
  (x.den : ℚ) / (x.num : ℚ)

/-! ### Decimal rendering

`estimate_pi_ratio`'s doctest checks the `Display` string `"num/den"` of the
resulting (positive) rational.  We model the rendered string as the list of
decimal digits of the numerator, a separator token 10 standing for the slash,
then the decimal digits of the denominator. -/

/-- Big-endian decimal digits of `n`, with explicit fuel (any fuel at least the
digit count gives the digits; `n` itself is always enough). -/
def decimalDigitsAux : ℕ → ℕ → List ℕ
  | 0, _ => []
  | _, 0 => []
  | f + 1, m + 1 => decimalDigitsAux f ((m + 1) / 10) ++ [(m + 1) % 10]

/-- Big-endian decimal digits of a natural number (empty for 0). -/
def decimalDigits (n : ℕ) : List ℕ :=
  decimalDigitsAux n n

/-- The `Display` rendering `"num/den"` of a positive rational, as a token
list: digits of the numerator, 10 for `'/'`, digits of the denominator. -/
def renderRat (q : ℚ) : List ℕ :=
  decimalDigits q.num.natAbs ++ [10] ++ decimalDigits q.den

/-! ### Helper lemmas: closed form of the append-sum loops -/

/-- The mathematical Lucas sequence `L 0 = 2`, `L 1 = 1`,
`L (n+2) = L n + L (n+1)`. -/
def lucasN : ℕ → ℤ
  | 0 => 2
  | 1 => 1
  | n + 2 => lucasN n + lucasN (n + 1)

/-- The mathematical Fibonacci sequence `F 0 = 0`, `F 1 = 1`,
`F (n+2) = F n + F (n+1)`. -/
def fibN : ℕ → ℤ
  | 0 => 0
  | 1 => 1
  | n + 2 => fibN n + fibN (n + 1)

theorem lucasN_rec : ∀ m : ℕ, 2 ≤ m → lucasN m = lucasN (m - 2) + lucasN (m - 1) := by
  intro m hm
  match m, hm with
  | n + 2, _ => rfl

theorem fibN_rec : ∀ m : ℕ, 2 ≤ m → fibN m = fibN (m - 2) + fibN (m - 1) := by
  intro m hm
  match m, hm with
  | n + 2, _ => rfl

/-- `fib_rec` on the first `m` values of a sequence is the sum of values
`m - 2` and `m - 1`. -/
theorem fib_rec_map_range (s : ℕ → ℤ) (m : ℕ) (hm : 2 ≤ m) :
    fib_rec ((List.range m).map s) = s (m - 2) + s (m - 1) := by
  unfold fib_rec
  have hlen : ((List.range m).map s).length = m := by simp
  rw [hlen, List.getD_eq_getElem?_getD, List.getD_eq_getElem?_getD,
    List.getElem?_map, List.getElem?_map,
    List.getElem?_range (by omega : m - 2 < m),
    List.getElem?_range (by omega : m - 1 < m)]
  rfl

/-- Running the push loop on the first `m` values of a sequence satisfying the
two-term recurrence extends it to the first `m + f` values. -/
theorem appendSums_map_range (s : ℕ → ℤ)
    (hs : ∀ m : ℕ, 2 ≤ m → s m = s (m - 2) + s (m - 1)) :
    ∀ f m : ℕ, 2 ≤ m →
      appendSums f ((List.range m).map s) = (List.range (m + f)).map s := by
  intro f
  induction f with
  | zero => intro m hm; rfl
  | succ g ih =>
    intro m hm
    show appendSums g ((List.range m).map s ++ [fib_rec ((List.range m).map s)]) = _
    rw [fib_rec_map_range s m hm, ← hs m hm]
    have hstep : (List.range m).map s ++ [s m] = (List.range (m + 1)).map s := by
      rw [List.range_succ, List.map_append]
      rfl
    rw [hstep, ih (m + 1) (by omega)]
    have harith : m + 1 + g = m + (g + 1) := by omega
    rw [harith]

/-- For `n ≥ 2`, `lucas_sequence n` is the list of the first `n` Lucas
numbers. -/
theorem lucas_sequence_eq_map (n : ℕ) (hn : 2 ≤ n) :
    lucas_sequence n = (List.range n).map lucasN := by
  unfold lucas_sequence generate_lucas_sequence
  rw [if_neg (by omega), if_neg (by omega)]
  have h0 : ([2, 1] : List ℤ) = (List.range 2).map lucasN := rfl
  rw [h0, appendSums_map_range lucasN lucasN_rec (n - 2) 2 (by omega)]
  have harith : 2 + (n - 2) = n := by omega
  rw [harith]

theorem lucas_sequence_length (n : ℕ) (hn : 2 ≤ n) :
    (lucas_sequence n).length = n := by
  rw [lucas_sequence_eq_map n hn]
  simp

theorem lucas_sequence_getD (n i : ℕ) (hn : 2 ≤ n) (hi : i < n) :
    (lucas_sequence n).getD i 0 = lucasN i := by
  rw [lucas_sequence_eq_map n hn, List.getD_eq_getElem?_getD,
    List.getElem?_map, List.getElem?_range hi]
  rfl

/-! ### Claim theorems -/

set_option maxRecDepth 8000 in
/-- Claim C1 (code bug, failing input `n_terms = 3`): the claimed series term
`term(i) = (4i)!(1103 + 26390 i) / (4^(4i) (i!)^4) * 1/99^(4i)` is NOT what the
code accumulates.  The code's `c_n` carries an extra `(i!)^4` factor in its
denominator, so already the third term (`i = 2`) differs by a factor 16, the
accumulated sum for `n_terms = 3` differs, and the returned value differs from
`reciprocal(A * sum)` built from the claimed terms. -/
theorem C1_pi_series_term_diverges_at_three :
    piTerm 2 ≠ specPiTerm 2 ∧
    piSum 3 ≠ specPiSum 3 ∧
    estimate_pi_ratio 3 ≠ some (specReciprocal (piA * specPiSum 3)) := by
  refine ⟨?_, ?_, ?_⟩
  · have h1 : piTerm 2 = 209545 / 14931604023216832512 := by with_unfolding_all rfl
    have h2 : specPiTerm 2 = 209545 / 933225251451052032 := by with_unfolding_all rfl
    rw [h1, h2]
    norm_num
  · have h1 : piSum 3 = 16469559638252582609545 / 14931604023216832512 := by
      with_unfolding_all rfl
    have h2 : specPiSum 3 = 1029347477390786609545 / 933225251451052032 := by
      with_unfolding_all rfl
    rw [h1, h2]
    norm_num
  · intro heq
    have h1 : ((estimate_pi_ratio 3).getD 0).num % 1000000007 = 536878710 := by
      with_unfolding_all rfl
    rw [heq] at h1
    have h2 : (specReciprocal (piA * specPiSum 3)).num % 1000000007 = 408554922 := by
      with_unfolding_all rfl
    simp only [Option.getD_some] at h1
    rw [h1] at h2
    norm_num at h2

/-- Claim C2 (code bug, failing input `frac = -1/2`): the reciprocal step
`inverse` does not relocate the sign to the numerator: on `-1/2` it returns
`2/1`, while the exact swap `q/p` is `-2`. -/
theorem C2_inverse_drops_sign_at_neg_half :
    inverse (-(1 / 2) : ℚ) = some 2 ∧
    specReciprocal (-(1 / 2) : ℚ) = -2 ∧
    (2 : ℚ) ≠ -2 := by
  refine ⟨by with_unfolding_all rfl, by with_unfolding_all rfl, by norm_num⟩

set_option maxRecDepth 8000 in
/-- Claim C3 (confirmed): `estimate_pi_ratio 1` succeeds, and its rendered
fraction string starts with the digits `158853645` (numerator prefix) and ends
with the digits `899151951` (denominator suffix). -/
theorem C3_estimate_pi_one_digit_pins :
    (estimate_pi_ratio 1).isSome = true ∧
    List.isPrefixOf [1, 5, 8, 8, 5, 3, 6, 4, 5]
      (renderRat ((estimate_pi_ratio 1).getD 0)) = true ∧
    List.isSuffixOf [8, 9, 9, 1, 5, 1, 9, 5, 1]
      (renderRat ((estimate_pi_ratio 1).getD 0)) = true := by
  refine ⟨by with_unfolding_all rfl, ?_, ?_⟩
  · with_unfolding_all rfl
  · with_unfolding_all rfl

/-- Claim C4 (confirmed): `estimate_pi_ratio 0` fails (the empty sum makes the
numerator of `a * sum` zero, and the `from_parts` call inside `inverse` hits
its zero-denominator panic, modelled as `none`); no ordinary rational value is
returned and no division by zero is silently performed. -/
theorem C4_estimate_pi_zero_fails : estimate_pi_ratio 0 = none := by
  with_unfolding_all rfl

/-- Claim C5 (confirmed): `golden_ratio n` is the rational 0 for `n < 2`, and
for `n ≥ 2` it is the ratio of the last two elements `L[n-1] / L[n-2]` of
`lucas_sequence n`. -/
theorem C5_golden_ratio_contract (n : ℕ) :
    (n < 2 → golden_ratio n = 0) ∧
    (2 ≤ n → golden_ratio n =
      ((lucas_sequence n).getD (n - 1) 0 : ℚ) /
        ((lucas_sequence n).getD (n - 2) 0 : ℚ)) := by
  constructor
  · intro h
    simp [golden_ratio, h]
  · intro h
    have hlen := lucas_sequence_length n h
    simp only [golden_ratio, if_neg (by omega : ¬n < 2)]
    rw [hlen]

/-- Witness for claim C5 at `n = 5` and `n = 0`. -/
theorem C5_golden_ratio_contract_witness :
    golden_ratio 5 = 7 / 4 ∧ golden_ratio 0 = 0 := by
  constructor
  · have h := (C5_golden_ratio_contract 5).2 (by norm_num)
    rw [h]
    with_unfolding_all rfl
  · exact (C5_golden_ratio_contract 0).1 (by norm_num)

/-- Claim C6, counterexample: at `k = 0` with one iteration the first Newton
step divides by the iterate `x₀ = 0`, and dashu's division panics -- the
function fails instead of returning the final iterate, so the claim's
unrestricted "for every k" is false on the code. -/
theorem C6_approx_sqrt_zero_panics : approx_sqrt 0 1 = none := by
  with_unfolding_all rfl

/-- For positive `k` every Newton iterate of `x ↦ (x + k/x) / 2` starting at
`k` is positive, and `approx_sqrt` computes exactly that iterate. -/
theorem approx_sqrt_pos (k : ℚ) (hk : 0 < k) :
    ∀ it : ℕ, 0 < (fun x => (x + k / x) / 2)^[it] k ∧
      approx_sqrt k it = some ((fun x => (x + k / x) / 2)^[it] k) := by
  intro it
  induction it with
  | zero => exact ⟨hk, rfl⟩
  | succ n ih =>
    obtain ⟨hpos, heq⟩ := ih
    rw [Function.iterate_succ_apply']
    constructor
    · show 0 < ((fun x => (x + k / x) / 2)^[n] k + k / (fun x => (x + k / x) / 2)^[n] k) / 2
      have hdiv : 0 < k / (fun x => (x + k / x) / 2)^[n] k := div_pos hk hpos
      positivity
    · show (approx_sqrt k n).bind (sqrtStep k) = _
      rw [heq]
      show sqrtStep k ((fun x => (x + k / x) / 2)^[n] k) = _
      unfold sqrtStep
      rw [if_neg hpos.ne']

/-- Claim C6, amended (corrected): for every positive `k` and every iteration
count, `approx_sqrt k iterations` starts from `x₀ = k` and applies exactly
`iterations` Newton steps `x ↦ (x + k/x) / 2` in exact rational arithmetic,
returning the final iterate (fixed iteration count, no convergence test).
For `k ≤ 0` the source can instead hit the division-by-zero panic (see the
counterexample), which the spec treats as a precondition violation. -/
theorem C6_approx_sqrt_newton_iterates (k : ℚ) (hk : 0 < k) (it : ℕ) :
    approx_sqrt k it = some ((fun x => (x + k / x) / 2)^[it] k) :=
  (approx_sqrt_pos k hk it).2

/-- Witness for the amended claim C6 at `k = 2`, `iterations = 2`. -/
theorem C6_approx_sqrt_newton_iterates_witness :
    approx_sqrt 2 2 = some (17 / 12) := by
  have h := C6_approx_sqrt_newton_iterates 2 (by norm_num) 2
  rw [h]
  with_unfolding_all rfl

/-- Claim C7 (confirmed): `lucas_sequence` returns `[]` for 0, `[2]` for 1,
and for `n ≥ 2` a length-`n` list starting `2, 1` in which every later element
is the sum of the two preceding ones; in particular
`lucas_sequence 5 = [2, 1, 3, 4, 7]`. -/
theorem C7_lucas_sequence_contract :
    lucas_sequence 0 = [] ∧
    lucas_sequence 1 = [2] ∧
    lucas_sequence 5 = [2, 1, 3, 4, 7] ∧
    ∀ n : ℕ, 2 ≤ n →
      (lucas_sequence n).length = n ∧
      (lucas_sequence n).getD 0 0 = 2 ∧
      (lucas_sequence n).getD 1 0 = 1 ∧
      ∀ i : ℕ, i + 2 < n →
        (lucas_sequence n).getD (i + 2) 0 =
          (lucas_sequence n).getD i 0 + (lucas_sequence n).getD (i + 1) 0 := by
  refine ⟨rfl, rfl, by decide, ?_⟩
  intro n hn
  refine ⟨lucas_sequence_length n hn, ?_, ?_, ?_⟩
  · rw [lucas_sequence_getD n 0 hn (by omega)]
    rfl
  · rw [lucas_sequence_getD n 1 hn (by omega)]
    rfl
  · intro i hi
    rw [lucas_sequence_getD n (i + 2) hn (by omega),
      lucas_sequence_getD n i hn (by omega),
      lucas_sequence_getD n (i + 1) hn (by omega)]
    rfl

/-- Witness for claim C7 at `n = 5`, `i = 1`. -/
theorem C7_lucas_sequence_contract_witness :
    (lucas_sequence 5).length = 5 ∧
    (lucas_sequence 5).getD 3 0 =
      (lucas_sequence 5).getD 1 0 + (lucas_sequence 5).getD 2 0 := by
  have h := C7_lucas_sequence_contract.2.2.2 5 (by norm_num)
  exact ⟨h.1, h.2.2.2 1 (by norm_num)⟩

/-- Claim C8 (code bug, failing input `n = 0`): `fibonacci_sequence n` is
claimed to have exactly `n` elements for every `n ≥ 0`, but the code seeds the
list with `[0, 1]` and never truncates, so `fibonacci_sequence 0 = [0, 1]`
(length 2, not 0).  The pinned value at `n = 5` does hold. -/
theorem C8_fibonacci_zero_returns_two_elements :
    fibonacci_sequence 0 = [0, 1] ∧
    (fibonacci_sequence 0).length = 2 ∧
    fibonacci_sequence 1 = [0, 1] ∧
    fibonacci_sequence 5 = [0, 1, 1, 2, 3] := by
  refine ⟨rfl, rfl, rfl, by decide⟩

/-- Claim C9, counterexample: on the negative input `-1` the arbitrary
precision `factorial` does not fail at all -- the `n <= 1` base case applies
and it returns the ordinary value 1. -/
theorem C9_factorial_negative_returns_value : factorial (-1) = 1 := rfl

/-- Claim C9, amended (corrected): for every negative integer `n`,
`factorial n` returns 1 (the `n <= 1` base case); it does not fail. -/
theorem C9_factorial_negative_returns_one (n : ℤ) (hn : n < 0) :
    factorial n = 1 := by
  match n with
  | Int.ofNat k =>
    rw [Int.ofNat_eq_coe] at hn
    omega
  | Int.negSucc k => rfl

/-- Witness for the amended claim C9 at `n = -5`. -/
theorem C9_factorial_negative_returns_one_witness :
    (-5 : ℤ) < 0 ∧ factorial (-5) = 1 :=
  ⟨by norm_num, C9_factorial_negative_returns_one (-5) (by norm_num)⟩

/-- Claim C10 (confirmed): for every rational with nonzero numerator `p` and
denominator `q`, `inverse` returns `q / |p|`; this value is always
nonnegative, and it equals the true reciprocal exactly on positive
numerators. -/
theorem C10_inverse_swaps_with_abs (x : ℚ) (hx : x.num ≠ 0) :
    inverse x = some ((x.den : ℚ) / (x.num.natAbs : ℚ)) ∧
    0 ≤ (x.den : ℚ) / (x.num.natAbs : ℚ) ∧
    (0 < x.num → (x.den : ℚ) / (x.num.natAbs : ℚ) = x⁻¹) := by
  refine ⟨by simp [inverse, swapAbs, hx], by positivity, ?_⟩
  intro hp
  rw [Rat.inv_def', Rat.divInt_eq_div]
  have hcast : ((x.num.natAbs : ℚ)) = ((x.num : ℚ)) := by
    rw [Int.cast_natAbs, abs_of_pos hp]
  rw [hcast]
  norm_num

/-- Witness for claim C10 at `x = -1/2`: the result `2` is the denominator
over the absolute numerator and is nonnegative (but not the reciprocal `-2`,
as the numerator is negative). -/
theorem C10_inverse_swaps_with_abs_witness :
    inverse (-(1 / 2) : ℚ) = some 2 ∧ (0 : ℚ) ≤ 2 := by
  have hx : (-(1 / 2) : ℚ).num ≠ 0 := by
    have h : (-(1 / 2) : ℚ).num = -1 := by with_unfolding_all rfl
    rw [h]
    norm_num
  have h := C10_inverse_swaps_with_abs (-(1 / 2) : ℚ) hx
  refine ⟨?_, by norm_num⟩
  rw [h.1]
  have hden : ((-(1 / 2) : ℚ).den : ℚ) = 2 := by with_unfolding_all rfl
  have hnum : ((-(1 / 2) : ℚ).num.natAbs : ℚ) = 1 := by with_unfolding_all rfl
  rw [hden, hnum]
  norm_num

end BensNT
